import Mathlib

/-!
# Verification of the nonrigid CPD transform (`include/cpd/nonrigid.hpp`)

A shallow embedding, in exact real arithmetic, of the nonrigid Coherent
Point Drift transform: the `Nonrigid` transform state, its `init`,
`modify_probabilities` and `compute_one` member functions, the two numeric
solve policies, and the collaborating data (`Probabilities`, results).
Eigen's dynamically sized `MatrixXd` is embedded as `Matrix (Fin n) (Fin d) ℝ`
with the dimensions carried in the types.
-/

open Matrix
open scoped BigOperators

noncomputable section

namespace cpd

/-- Default value for beta (`DEFAULT_BETA = 3.0`). -/
noncomputable def DEFAULT_BETA : ℝ := 3

/-- Default value for lambda (`DEFAULT_LAMBDA = 3.0`). -/
noncomputable def DEFAULT_LAMBDA : ℝ := 3

/-- Modelled from the spec: the `Probabilities` (correspondence statistics)
struct lives in `cpd/probabilities.hpp`, which is not part of the sources at
hand; §3 of the spec lists the fields consumed by this core: `p1` (length-N
row-marginal mass per moving point), `pt1` (length-M column-marginal mass per
fixed point), `px` (N×D correspondence-weighted fixed positions) and `l`
(scalar running objective accumulator). -/
structure Probabilities (n m d : ℕ) where
  p1 : Fin n → ℝ
  pt1 : Fin m → ℝ
  px : Matrix (Fin n) (Fin d) ℝ
  l : ℝ

/-- Modelled from the spec: the base `Result` struct (from `cpd/transform.hpp`,
not in the sources at hand) as consumed here carries the updated points and the
re-estimated noise variance; `NonrigidResult` adds nothing to it. -/
structure NonrigidResult (n d : ℕ) where
  points : Matrix (Fin n) (Fin d) ℝ
  sigma2 : ℝ

/-- Modelled from the spec: the affinity (Gaussian kernel) builder lives
outside the sources at hand; §4.1 gives its contract:
`G[i][j] = exp(−‖x[i]−y[j]‖² / (2β²))`, a deterministic pure function. -/
noncomputable def affinity {n nn d : ℕ} (x : Matrix (Fin n) (Fin d) ℝ)
    (y : Matrix (Fin nn) (Fin d) ℝ) (beta : ℝ) : Matrix (Fin n) (Fin nn) ℝ :=
  Matrix.of fun i j => Real.exp (-(∑ k, (x i k - y j k) ^ 2) / (2 * beta ^ 2))

/-- The two numeric policies of the `Nonrigid` class template
(`enum class NonrigidPolicy`). -/
inductive NonrigidPolicy where
  | PRECISION
  | PERFORMANCE
deriving DecidableEq

/-- The `Nonrigid` transform state: kernel matrix `m_g`, weight matrix `m_w`,
and the configuration scalars `m_lambda`, `m_beta`, `m_linked`. -/
structure Nonrigid (n d : ℕ) where
  m_g : Matrix (Fin n) (Fin n) ℝ
  m_w : Matrix (Fin n) (Fin d) ℝ
  m_lambda : ℝ
  m_beta : ℝ
  m_linked : Bool

namespace Nonrigid

variable {n m d : ℕ}

/-- `Nonrigid::init`: `m_g = affinity(moving, moving, m_beta)`;
`m_w = Matrix::Zero(moving.rows(), moving.cols())`. The `fixed` argument is
received but not used by the body. -/
noncomputable def init (s : Nonrigid n d) (fixed : Matrix (Fin m) (Fin d) ℝ)
    (moving : Matrix (Fin n) (Fin d) ℝ) : Nonrigid n d :=
  { s with m_g := affinity moving moving s.m_beta, m_w := 0 }

/-- `Nonrigid::modify_probabilities`:
`probabilities.l += m_lambda / 2.0 * (m_w.transpose() * m_g * m_w).trace()`. -/
def modify_probabilities (s : Nonrigid n d) (probabilities : Probabilities n m d) :
    Probabilities n m d :=
  { probabilities with
    l := probabilities.l + s.m_lambda / 2 * (s.m_w.transpose * s.m_g * s.m_w).trace }

/-- `Nonrigid::beta`: chainable setter for `m_beta`. -/
def beta (s : Nonrigid n d) (b : ℝ) : Nonrigid n d :=
  { s with m_beta := b }

/-- `Nonrigid::lambda`: chainable setter for `m_lambda`. -/
def lambda (s : Nonrigid n d) (l : ℝ) : Nonrigid n d :=
  { s with m_lambda := l }

/-- `Nonrigid::linked`: chainable setter for `m_linked`. -/
def linked (s : Nonrigid n d) (l : Bool) : Nonrigid n d :=
  { s with m_linked := l }

/-- The left-hand operator of the regularized solve in `compute_one`:
`dp * m_g + m_lambda * sigma2 * Matrix::Identity(moving.rows(), moving.rows())`
with `dp = probabilities.p1.asDiagonal()`. -/
def regularizedLhs (p1 : Fin n → ℝ) (g : Matrix (Fin n) (Fin n) ℝ)
    (lambda sigma2 : ℝ) : Matrix (Fin n) (Fin n) ℝ :=
  Matrix.diagonal p1 * g + (lambda * sigma2) • (1 : Matrix (Fin n) (Fin n) ℝ)

/-- Exact-arithmetic model of Eigen's `A.colPivHouseholderQr().solve(b)`
(PRECISION policy): the column-pivoted, rank-revealing QR solve targets the
least-squares solution, here written through the normal equations. -/
noncomputable def colPivHouseholderQr_solve (A : Matrix (Fin n) (Fin n) ℝ)
    (b : Matrix (Fin n) (Fin d) ℝ) : Matrix (Fin n) (Fin d) ℝ :=
  (A.transpose * A)⁻¹ * A.transpose * b

/-- Exact-arithmetic model of Eigen's `A.householderQr().solve(b)`
(PERFORMANCE policy): the unpivoted QR solve assumes an invertible system and
back-substitutes, producing `A⁻¹ * b`. -/
noncomputable def householderQr_solve (A : Matrix (Fin n) (Fin n) ℝ)
    (b : Matrix (Fin n) (Fin d) ℝ) : Matrix (Fin n) (Fin d) ℝ :=
  A⁻¹ * b

/-- The local weight matrix `w` solved inside `Nonrigid::compute_one`:
the chosen decomposition of `dp * m_g + m_lambda * sigma2 * I` applied to the
right-hand side `probabilities.px - dp * moving`. -/
noncomputable def nonrigid_w (P : NonrigidPolicy) (s : Nonrigid n d)
    (moving : Matrix (Fin n) (Fin d) ℝ) (probabilities : Probabilities n m d)
    (sigma2 : ℝ) : Matrix (Fin n) (Fin d) ℝ :=
  let A := regularizedLhs probabilities.p1 s.m_g s.m_lambda sigma2
  let b := probabilities.px - Matrix.diagonal probabilities.p1 * moving
  match P with
  | NonrigidPolicy.PRECISION => colPivHouseholderQr_solve A b
  | NonrigidPolicy.PERFORMANCE => householderQr_solve A b

/-- `Nonrigid::compute_one`: solve for the local `w`, set
`result.points = moving + m_g * w`, and re-estimate
`result.sigma2 = std::abs((Σ fixed²⊙pt1 + Σ points²⊙p1 − 2·tr(pxᵀ·points)) / (np·cols))`
with `np = probabilities.p1.sum()` and `cols = fixed.cols()`. -/
noncomputable def compute_one (P : NonrigidPolicy) (s : Nonrigid n d)
    (fixed : Matrix (Fin m) (Fin d) ℝ) (moving : Matrix (Fin n) (Fin d) ℝ)
    (probabilities : Probabilities n m d) (sigma2 : ℝ) : NonrigidResult n d :=
  let w := nonrigid_w P s moving probabilities sigma2
  let points := moving + s.m_g * w
  let np := ∑ i, probabilities.p1 i
  { points := points
    sigma2 := |((∑ i, ∑ j, fixed i j ^ 2 * probabilities.pt1 i) +
        (∑ i, ∑ j, points i j ^ 2 * probabilities.p1 i) -
        2 * (probabilities.px.transpose * points).trace) / (np * (d : ℝ))| }

/-- Method-call semantics of `compute_one`: the C++ member function is
declared `const`, so a call returns the receiver state unchanged together
with the `NonrigidResult`. -/
noncomputable def compute_one_call (P : NonrigidPolicy) (s : Nonrigid n d)
    (fixed : Matrix (Fin m) (Fin d) ℝ) (moving : Matrix (Fin n) (Fin d) ℝ)
    (probabilities : Probabilities n m d) (sigma2 : ℝ) :
    Nonrigid n d × NonrigidResult n d :=
  (s, compute_one P s fixed moving probabilities sigma2)

end Nonrigid

/-- The noise-variance formula as the specification states it: the absolute
value of the numerator alone, divided by `np·D` (the code instead takes the
absolute value of the whole quotient). -/
noncomputable def sigma2_spec {n m d : ℕ} (fixed : Matrix (Fin m) (Fin d) ℝ)
    (points px : Matrix (Fin n) (Fin d) ℝ) (p1 : Fin n → ℝ) (pt1 : Fin m → ℝ) : ℝ :=
  |(∑ i, ∑ j, fixed i j ^ 2 * pt1 i) +
      (∑ i, ∑ j, points i j ^ 2 * p1 i) -
      2 * (px.transpose * points).trace| / ((∑ i, p1 i) * (d : ℝ))

/-! Concrete instances used to exercise the development on closed inputs. -/

/-- A concrete 1×1 fixed point matrix. -/
def fixed1 : Matrix (Fin 1) (Fin 1) ℝ := Matrix.of fun _ _ => 1

/-- A concrete 1×1 moving point matrix. -/
def moving1 : Matrix (Fin 1) (Fin 1) ℝ := Matrix.of fun _ _ => 0

/-- A concrete one-point transform state with unit kernel, zero weights,
`lambda = 1`, `beta = 1`. -/
def state1 : Nonrigid 1 1 := ⟨Matrix.of fun _ _ => 1, 0, 1, 1, false⟩

/-- Concrete uniform correspondence statistics for one point. -/
def probs1 : Probabilities 1 1 1 := ⟨fun _ => 1, fun _ => 1, Matrix.of fun _ _ => 1, 0⟩

/-- Concrete degenerate correspondence statistics with a negative `p1`. -/
def probs2 : Probabilities 1 1 1 := ⟨fun _ => -1, fun _ => 1, Matrix.of fun _ _ => 0, 0⟩

/-- Five 2-D points arranged on a line. -/
def lineMoving : Matrix (Fin 5) (Fin 2) ℝ :=
  Matrix.of fun i j => if j = 0 then (i.val : ℝ) else 0

/-- The transform state obtained by `init` on the line scenario with the
default parameters `lambda = 3`, `beta = 3`. -/
def lineState : Nonrigid 5 2 := Nonrigid.init ⟨1, 0, 3, 3, false⟩ lineMoving lineMoving

/-- Perfect one-to-one correspondence statistics for the line scenario. -/
def lineProbs : Probabilities 5 5 2 := ⟨fun _ => 1, fun _ => 1, lineMoving, 0⟩

/-- The all-ones symmetric 2×2 kernel matrix. -/
def onesG : Matrix (Fin 2) (Fin 2) ℝ := Matrix.of fun _ _ => 1

/-- A non-constant correspondence mass vector. -/
def p1Skew : Fin 2 → ℝ := fun i => if i = 0 then 1 else 2

/-- The one-point transform state produced by `init` (kernel `exp(0) = 1`,
weights reset to zero), with `lambda = 1`, `beta = 1`. -/
def postInit : Nonrigid 1 1 := Nonrigid.init ⟨1, 1, 1, 1, false⟩ fixed1 moving1

/-! Theorems. -/

section Theorems

open Nonrigid

variable {n m d : ℕ}

/-- C4: `modify_probabilities` adds exactly `(λ/2)·trace(Wᵀ·G·W)` to the
running objective field `l`, where `W` and `G` are the transform state's
stored weight and kernel matrices, and leaves the fields `p1`, `pt1`, `px`
of the statistics unchanged. -/
theorem C4_modify_probabilities_adds_regularization (s : Nonrigid n d)
    (probabilities : Probabilities n m d) :
    (s.modify_probabilities probabilities).l =
      probabilities.l + s.m_lambda / 2 * (s.m_w.transpose * s.m_g * s.m_w).trace
    ∧ (s.modify_probabilities probabilities).p1 = probabilities.p1
    ∧ (s.modify_probabilities probabilities).pt1 = probabilities.pt1
    ∧ (s.modify_probabilities probabilities).px = probabilities.px :=
  ⟨rfl, rfl, rfl, rfl⟩

/-- C3 (amended): `compute_one` is `const` and has no side effects at all:
a call returns the receiver transform state unchanged — in particular the
stored weight matrix `m_w` is not updated to the locally solved `w` — and
its second component is exactly the computed `NonrigidResult`. -/
theorem C3_amended_compute_one_no_state_change (P : NonrigidPolicy)
    (s : Nonrigid n d) (fixed : Matrix (Fin m) (Fin d) ℝ)
    (moving : Matrix (Fin n) (Fin d) ℝ) (probabilities : Probabilities n m d)
    (sigma2 : ℝ) :
    (s.compute_one_call P fixed moving probabilities sigma2).1 = s
    ∧ (s.compute_one_call P fixed moving probabilities sigma2).1.m_w = s.m_w
    ∧ (s.compute_one_call P fixed moving probabilities sigma2).2 =
        s.compute_one P fixed moving probabilities sigma2 :=
  ⟨rfl, rfl, rfl⟩

/-- C5: after `init` the stored weight matrix `m_w` is the all-zero matrix,
no member function assigns to it again (the setters copy it, `compute_one`
leaves the state untouched), and consequently `modify_probabilities` on an
`init`-ed state adds exactly `0` to the objective `l`, returning the
statistics unchanged. -/
theorem C5_m_w_zero_after_init (P : NonrigidPolicy) (s : Nonrigid n d)
    (fixed : Matrix (Fin m) (Fin d) ℝ) (moving : Matrix (Fin n) (Fin d) ℝ)
    (probabilities : Probabilities n m d) (sigma2 b lam : ℝ) (lk : Bool) :
    (s.init fixed moving).m_w = 0
    ∧ (s.beta b).m_w = s.m_w
    ∧ (s.lambda lam).m_w = s.m_w
    ∧ (s.linked lk).m_w = s.m_w
    ∧ (s.compute_one_call P fixed moving probabilities sigma2).1 = s
    ∧ (s.init fixed moving).modify_probabilities probabilities = probabilities := by
  refine ⟨rfl, rfl, rfl, rfl, rfl, ?_⟩
  cases probabilities with
  | mk p1 pt1 px l =>
    simp [modify_probabilities, init]

/-- C10: `init` does not depend on its `fixed` argument: on states with equal
configuration (`lambda`, `beta`, `linked`), `init` with any two fixed
matrices and the same moving matrix yields identical transform states. -/
theorem C10_init_ignores_fixed {m2 : ℕ} (s1 s2 : Nonrigid n d)
    (fixed1' : Matrix (Fin m) (Fin d) ℝ) (fixed2' : Matrix (Fin m2) (Fin d) ℝ)
    (moving : Matrix (Fin n) (Fin d) ℝ)
    (hl : s1.m_lambda = s2.m_lambda) (hb : s1.m_beta = s2.m_beta)
    (hk : s1.m_linked = s2.m_linked) :
    s1.init fixed1' moving = s2.init fixed2' moving := by
  cases s1; cases s2
  simp_all [init]

/-- Witness for C10 at concrete states and matrices. -/
theorem C10_witness :
    state1.m_lambda = state1.m_lambda ∧ state1.m_beta = state1.m_beta ∧
    state1.m_linked = state1.m_linked ∧
    state1.init fixed1 moving1 = state1.init moving1 moving1 :=
  ⟨rfl, rfl, rfl, C10_init_ignores_fixed state1 state1 fixed1 moving1 moving1 rfl rfl rfl⟩

/-- C8: for every input with `np = Σ p1 > 0`, the `sigma2` returned by
`compute_one` is non-negative (the code wraps the whole quotient in an
absolute value). -/
theorem C8_sigma2_nonneg (P : NonrigidPolicy) (s : Nonrigid n d)
    (fixed : Matrix (Fin m) (Fin d) ℝ) (moving : Matrix (Fin n) (Fin d) ℝ)
    (probabilities : Probabilities n m d) (sigma2 : ℝ)
    (h : 0 < ∑ i, probabilities.p1 i) :
    0 ≤ (s.compute_one P fixed moving probabilities sigma2).sigma2 :=
  abs_nonneg _

/-- Witness for C8 at a concrete non-degenerate input. -/
theorem C8_witness :
    (0 : ℝ) < ∑ i, probs1.p1 i ∧
    0 ≤ (state1.compute_one NonrigidPolicy.PRECISION fixed1 moving1 probs1 1).sigma2 := by
  have h : (0 : ℝ) < ∑ i, probs1.p1 i := by simp [probs1]
  exact ⟨h, C8_sigma2_nonneg NonrigidPolicy.PRECISION state1 fixed1 moving1 probs1 1 h⟩

/-- Helper: the unpivoted QR solve model returns a genuine solution of the
system whenever the matrix is invertible. -/
theorem householderQr_solve_is_solution (A : Matrix (Fin n) (Fin n) ℝ)
    (b : Matrix (Fin n) (Fin d) ℝ) (h : IsUnit A.det) :
    A * householderQr_solve A b = b := by
  rw [householderQr_solve, ← Matrix.mul_assoc, Matrix.mul_nonsing_inv _ h, Matrix.one_mul]

/-- Helper: on an invertible system the two solve models agree. -/
theorem colPivHouseholderQr_solve_eq_householder (A : Matrix (Fin n) (Fin n) ℝ)
    (b : Matrix (Fin n) (Fin d) ℝ) (h : IsUnit A.det) :
    colPivHouseholderQr_solve A b = householderQr_solve A b := by
  have ht : IsUnit A.transpose.det := by rwa [Matrix.det_transpose]
  rw [colPivHouseholderQr_solve, householderQr_solve, Matrix.mul_inv_rev,
    Matrix.mul_assoc A⁻¹, Matrix.nonsing_inv_mul _ ht, Matrix.mul_one]

/-- Helper: under either policy the solved local `w` is the inverse applied to
the right-hand side, when the regularized operator is invertible. -/
theorem nonrigid_w_eq (P : NonrigidPolicy) (s : Nonrigid n d)
    (moving : Matrix (Fin n) (Fin d) ℝ) (probabilities : Probabilities n m d)
    (sigma2 : ℝ)
    (h : IsUnit (regularizedLhs probabilities.p1 s.m_g s.m_lambda sigma2).det) :
    s.nonrigid_w P moving probabilities sigma2 =
      (regularizedLhs probabilities.p1 s.m_g s.m_lambda sigma2)⁻¹ *
        (probabilities.px - Matrix.diagonal probabilities.p1 * moving) := by
  cases P
  · exact colPivHouseholderQr_solve_eq_householder _ _ h
  · rfl

/-- Helper: the `sigma2` field of a `compute_one` result, written through the
`points` field of the same result. -/
theorem compute_one_sigma2_eq (P : NonrigidPolicy) (s : Nonrigid n d)
    (fixed : Matrix (Fin m) (Fin d) ℝ) (moving : Matrix (Fin n) (Fin d) ℝ)
    (probabilities : Probabilities n m d) (sigma2 : ℝ) :
    (s.compute_one P fixed moving probabilities sigma2).sigma2 =
      |((∑ i, ∑ j, fixed i j ^ 2 * probabilities.pt1 i) +
          (∑ i, ∑ j, (s.compute_one P fixed moving probabilities sigma2).points i j ^ 2 *
            probabilities.p1 i) -
          2 * (probabilities.px.transpose *
            (s.compute_one P fixed moving probabilities sigma2).points).trace) /
        ((∑ i, probabilities.p1 i) * (d : ℝ))| :=
  rfl

/-- Helper: trace of the Gram product is the sum of squared entries. -/
theorem trace_transpose_mul_self (M : Matrix (Fin n) (Fin d) ℝ) :
    (M.transpose * M).trace = ∑ i, ∑ j, M i j ^ 2 := by
  rw [Matrix.trace]
  simp only [Matrix.diag, Matrix.mul_apply, Matrix.transpose_apply]
  rw [Finset.sum_comm]
  simp [sq]

/-- Helper: the determinant of the regularized operator at the concrete
one-point instance. -/
theorem state1_lhs_det : (regularizedLhs probs1.p1 state1.m_g state1.m_lambda 1).det = 2 := by
  simp [regularizedLhs, probs1, state1, Matrix.det_fin_one, Matrix.diagonal_mul]
  norm_num

/-- Helper: that determinant is a unit. -/
theorem state1_lhs_isUnit : IsUnit (regularizedLhs probs1.p1 state1.m_g state1.m_lambda 1).det := by
  rw [state1_lhs_det]
  exact isUnit_iff_ne_zero.mpr (by norm_num)

/-- C1: `compute_one` computes the weight matrix `W` as the solution of the
linear system `(dP·G + λ·σ²·I)·W = (px − dP·moving)` with `dP = diag(p1)`
(it satisfies the system, and is the unique such matrix when the operator is
invertible), and returns `points_new = moving + G·W`. -/
theorem C1_compute_one_solves_regularized_system (P : NonrigidPolicy)
    (s : Nonrigid n d) (fixed : Matrix (Fin m) (Fin d) ℝ)
    (moving : Matrix (Fin n) (Fin d) ℝ) (probabilities : Probabilities n m d)
    (sigma2 : ℝ)
    (h : IsUnit (regularizedLhs probabilities.p1 s.m_g s.m_lambda sigma2).det) :
    regularizedLhs probabilities.p1 s.m_g s.m_lambda sigma2 *
        s.nonrigid_w P moving probabilities sigma2 =
      probabilities.px - Matrix.diagonal probabilities.p1 * moving
    ∧ (∀ w, regularizedLhs probabilities.p1 s.m_g s.m_lambda sigma2 * w =
          probabilities.px - Matrix.diagonal probabilities.p1 * moving →
        w = s.nonrigid_w P moving probabilities sigma2)
    ∧ (s.compute_one P fixed moving probabilities sigma2).points =
        moving + s.m_g * s.nonrigid_w P moving probabilities sigma2 := by
  have hw := nonrigid_w_eq P s moving probabilities sigma2 h
  refine ⟨?_, ?_, rfl⟩
  · rw [hw, ← Matrix.mul_assoc, Matrix.mul_nonsing_inv _ h, Matrix.one_mul]
  · intro w hwEq
    have h2 := congrArg
      (fun M => (regularizedLhs probabilities.p1 s.m_g s.m_lambda sigma2)⁻¹ * M) hwEq
    simp only [← Matrix.mul_assoc, Matrix.nonsing_inv_mul _ h, Matrix.one_mul] at h2
    rw [h2, ← hw]

/-- Witness for C1: the one-point system with operator determinant `2`. -/
theorem C1_witness :
    IsUnit (regularizedLhs probs1.p1 state1.m_g state1.m_lambda 1).det ∧
    (regularizedLhs probs1.p1 state1.m_g state1.m_lambda 1 *
        state1.nonrigid_w NonrigidPolicy.PRECISION moving1 probs1 1 =
      probs1.px - Matrix.diagonal probs1.p1 * moving1
    ∧ (∀ w, regularizedLhs probs1.p1 state1.m_g state1.m_lambda 1 * w =
          probs1.px - Matrix.diagonal probs1.p1 * moving1 →
        w = state1.nonrigid_w NonrigidPolicy.PRECISION moving1 probs1 1)
    ∧ (state1.compute_one NonrigidPolicy.PRECISION fixed1 moving1 probs1 1).points =
        moving1 + state1.m_g * state1.nonrigid_w NonrigidPolicy.PRECISION moving1 probs1 1) :=
  ⟨state1_lhs_isUnit,
    C1_compute_one_solves_regularized_system NonrigidPolicy.PRECISION state1 fixed1
      moving1 probs1 1 state1_lhs_isUnit⟩

/-- C9: on an invertible regularized system the PRECISION (pivoted) and
PERFORMANCE (non-pivoted) policies solve to the same `W`, hence `compute_one`
returns the same `points` and `sigma2` under either policy. -/
theorem C9_policy_equivalence (s : Nonrigid n d)
    (fixed : Matrix (Fin m) (Fin d) ℝ) (moving : Matrix (Fin n) (Fin d) ℝ)
    (probabilities : Probabilities n m d) (sigma2 : ℝ)
    (h : IsUnit (regularizedLhs probabilities.p1 s.m_g s.m_lambda sigma2).det) :
    s.nonrigid_w NonrigidPolicy.PRECISION moving probabilities sigma2 =
      s.nonrigid_w NonrigidPolicy.PERFORMANCE moving probabilities sigma2
    ∧ s.compute_one NonrigidPolicy.PRECISION fixed moving probabilities sigma2 =
        s.compute_one NonrigidPolicy.PERFORMANCE fixed moving probabilities sigma2 := by
  have hw : s.nonrigid_w NonrigidPolicy.PRECISION moving probabilities sigma2 =
      s.nonrigid_w NonrigidPolicy.PERFORMANCE moving probabilities sigma2 :=
    colPivHouseholderQr_solve_eq_householder _ _ h
  refine ⟨hw, ?_⟩
  simp only [compute_one, hw]

/-- Witness for C9 at the concrete one-point instance. -/
theorem C9_witness :
    IsUnit (regularizedLhs probs1.p1 state1.m_g state1.m_lambda 1).det ∧
    (state1.nonrigid_w NonrigidPolicy.PRECISION moving1 probs1 1 =
      state1.nonrigid_w NonrigidPolicy.PERFORMANCE moving1 probs1 1
    ∧ state1.compute_one NonrigidPolicy.PRECISION fixed1 moving1 probs1 1 =
        state1.compute_one NonrigidPolicy.PERFORMANCE fixed1 moving1 probs1 1) :=
  ⟨state1_lhs_isUnit,
    C9_policy_equivalence state1 fixed1 moving1 probs1 1 state1_lhs_isUnit⟩

/-- C6: if `moving = fixed`, `p1` and `pt1` are all ones and `px = moving`,
then the solved `W` is zero, `compute_one` returns `points = moving` and
`sigma2 = 0`. -/
theorem C6_zero_displacement_fixed_point (P : NonrigidPolicy) (s : Nonrigid n d)
    (fixed moving : Matrix (Fin n) (Fin d) ℝ) (probabilities : Probabilities n n d)
    (sigma2 : ℝ) (hmf : moving = fixed)
    (hp1 : probabilities.p1 = fun _ => 1) (hpt1 : probabilities.pt1 = fun _ => 1)
    (hpx : probabilities.px = moving) :
    s.nonrigid_w P moving probabilities sigma2 = 0
    ∧ (s.compute_one P fixed moving probabilities sigma2).points = moving
    ∧ (s.compute_one P fixed moving probabilities sigma2).sigma2 = 0 := by
  have hb : probabilities.px - Matrix.diagonal probabilities.p1 * moving = 0 := by
    rw [hpx, hp1, Matrix.diagonal_one, Matrix.one_mul, sub_self]
  have hw : s.nonrigid_w P moving probabilities sigma2 = 0 := by
    cases P
    · show colPivHouseholderQr_solve _
        (probabilities.px - Matrix.diagonal probabilities.p1 * moving) = 0
      rw [hb, colPivHouseholderQr_solve, Matrix.mul_zero]
    · show householderQr_solve _
        (probabilities.px - Matrix.diagonal probabilities.p1 * moving) = 0
      rw [hb, householderQr_solve, Matrix.mul_zero]
  have hpoints : (s.compute_one P fixed moving probabilities sigma2).points = moving := by
    show moving + s.m_g * s.nonrigid_w P moving probabilities sigma2 = moving
    rw [hw, Matrix.mul_zero, add_zero]
  refine ⟨hw, hpoints, ?_⟩
  rw [compute_one_sigma2_eq, hpoints, hpx, hp1, hpt1]
  subst hmf
  rw [trace_transpose_mul_self]
  have hz : (∑ i, ∑ j, moving i j ^ 2 * 1) + (∑ i, ∑ j, moving i j ^ 2 * 1) -
      2 * (∑ i, ∑ j, moving i j ^ 2) = 0 := by
    simp only [mul_one]
    ring
  rw [hz, zero_div, abs_zero]

/-- Witness for C6: the scenario of five identical 2-D point sets on a line
with `lambda = 3`, `beta = 3`, `sigma2 = 1`, uniform unit masses. -/
theorem C6_witness :
    lineMoving = lineMoving ∧ lineProbs.p1 = (fun _ => 1) ∧
    lineProbs.pt1 = (fun _ => 1) ∧ lineProbs.px = lineMoving ∧
    (lineState.nonrigid_w NonrigidPolicy.PRECISION lineMoving lineProbs 1 = 0
    ∧ (lineState.compute_one NonrigidPolicy.PRECISION lineMoving lineMoving lineProbs 1).points =
        lineMoving
    ∧ (lineState.compute_one NonrigidPolicy.PRECISION lineMoving lineMoving lineProbs 1).sigma2 = 0) :=
  ⟨rfl, rfl, rfl, rfl,
    C6_zero_displacement_fixed_point NonrigidPolicy.PRECISION lineState lineMoving
      lineMoving lineProbs 1 rfl rfl rfl rfl⟩

/-- C2 (amended): for every input whose total correspondence mass
`np = Σ p1` is non-negative — in particular every valid input, where
`np > 0` — the returned `sigma2` equals the spec's formula
`|Σ(fixed²⊙pt1) + Σ(points²⊙p1) − 2·tr(pxᵀ·points)| / (np·D)`. -/
theorem C2_sigma2_matches_spec_formula (P : NonrigidPolicy) (s : Nonrigid n d)
    (fixed : Matrix (Fin m) (Fin d) ℝ) (moving : Matrix (Fin n) (Fin d) ℝ)
    (probabilities : Probabilities n m d) (sigma2 : ℝ)
    (h : 0 ≤ ∑ i, probabilities.p1 i) :
    (s.compute_one P fixed moving probabilities sigma2).sigma2 =
      sigma2_spec fixed (s.compute_one P fixed moving probabilities sigma2).points
        probabilities.px probabilities.p1 probabilities.pt1 := by
  rw [compute_one_sigma2_eq, sigma2_spec, abs_div,
    abs_of_nonneg (mul_nonneg h (Nat.cast_nonneg d))]

/-- Witness for C2 at the concrete one-point instance with `np = 1`. -/
theorem C2_witness :
    (0 : ℝ) ≤ ∑ i, probs1.p1 i ∧
    (state1.compute_one NonrigidPolicy.PRECISION fixed1 moving1 probs1 1).sigma2 =
      sigma2_spec fixed1
        (state1.compute_one NonrigidPolicy.PRECISION fixed1 moving1 probs1 1).points
        probs1.px probs1.p1 probs1.pt1 := by
  have h : (0 : ℝ) ≤ ∑ i, probs1.p1 i := by simp [probs1]
  exact ⟨h, C2_sigma2_matches_spec_formula NonrigidPolicy.PRECISION state1 fixed1
    moving1 probs1 1 h⟩

/-- Helper: the kernel entry of the `init`-ed one-point state is `exp 0 = 1`. -/
theorem postInit_m_g : postInit.m_g 0 0 = 1 := by
  simp [postInit, Nonrigid.init, affinity, moving1]

/-- Helper: the inverse of a 1×1 real matrix, entrywise. -/
theorem inv_fin_one_apply (A : Matrix (Fin 1) (Fin 1) ℝ) : A⁻¹ 0 0 = (A 0 0)⁻¹ := by
  rw [Matrix.inv_def, Matrix.adjugate_fin_one, Matrix.det_fin_one, Ring.inverse_eq_inv]
  simp [Matrix.smul_apply, Matrix.one_apply]

/-- Helper: the regularized operator entry at the `init`-ed one-point
instance equals `2`. -/
theorem postInit_lhs_entry :
    regularizedLhs probs1.p1 postInit.m_g postInit.m_lambda 1 0 0 = 2 := by
  have hg := postInit_m_g
  have hl : postInit.m_lambda = 1 := rfl
  simp [regularizedLhs, probs1, Matrix.diagonal_mul, hg, hl, Matrix.add_apply,
    Matrix.smul_apply, Matrix.one_apply]
  norm_num

/-- Helper: the local `w` solved by `compute_one` at the `init`-ed one-point
instance has entry `1/2`, in particular it is nonzero. -/
theorem postInit_w_entry :
    postInit.nonrigid_w NonrigidPolicy.PRECISION moving1 probs1 1 0 0 = 1 / 2 := by
  show colPivHouseholderQr_solve (regularizedLhs probs1.p1 postInit.m_g postInit.m_lambda 1)
    (probs1.px - Matrix.diagonal probs1.p1 * moving1) 0 0 = 1 / 2
  have hb : (probs1.px - Matrix.diagonal probs1.p1 * moving1) 0 0 = 1 := by
    simp [probs1, moving1, Matrix.sub_apply, Matrix.diagonal_mul]
  rw [colPivHouseholderQr_solve]
  rw [Matrix.mul_apply, Fin.sum_univ_one, Matrix.mul_apply, Fin.sum_univ_one]
  rw [inv_fin_one_apply, Matrix.mul_apply, Fin.sum_univ_one, Matrix.transpose_apply,
    postInit_lhs_entry, hb]
  norm_num

/-- C3 is false as stated: at the `init`-ed one-point state (stored `W = 0`),
a call to `compute_one` leaves the state's `W` unchanged, and it differs from
the `W` solved in that call (whose entry is `1/2`). -/
theorem C3_counterexample :
    (postInit.compute_one_call NonrigidPolicy.PRECISION fixed1 moving1 probs1 1).1.m_w ≠
      postInit.nonrigid_w NonrigidPolicy.PRECISION moving1 probs1 1 := by
  intro h
  have h2 := Matrix.ext_iff.mpr h 0 0
  rw [postInit_w_entry] at h2
  have h0 : (postInit.compute_one_call NonrigidPolicy.PRECISION fixed1 moving1 probs1 1).1.m_w 0 0 = 0 := by
    show postInit.m_w 0 0 = 0
    simp [postInit, Nonrigid.init]
  rw [h0] at h2
  norm_num at h2

/-- Helper: the solved `w` vanishes at the degenerate instance `probs2`
because the right-hand side of the system vanishes. -/
theorem probs2_w_zero :
    state1.nonrigid_w NonrigidPolicy.PRECISION moving1 probs2 1 = 0 := by
  have hb : probs2.px - Matrix.diagonal probs2.p1 * moving1 = 0 := by
    ext i j
    simp [probs2, moving1, Matrix.sub_apply, Matrix.diagonal_mul]
  show colPivHouseholderQr_solve _
    (probs2.px - Matrix.diagonal probs2.p1 * moving1) = 0
  rw [hb, colPivHouseholderQr_solve, Matrix.mul_zero]

/-- Helper: the points returned at the degenerate instance equal `moving1`. -/
theorem probs2_points :
    (state1.compute_one NonrigidPolicy.PRECISION fixed1 moving1 probs2 1).points = moving1 := by
  show moving1 + state1.m_g * state1.nonrigid_w NonrigidPolicy.PRECISION moving1 probs2 1 = moving1
  rw [probs2_w_zero, Matrix.mul_zero, add_zero]

/-- C2 is false as stated for arbitrary inputs: with the total mass
`np = Σ p1 = −1 < 0`, the code returns `|num/(np·D)| = 1` while the claimed
formula `|num|/(np·D)` evaluates to `−1`. -/
theorem C2_counterexample :
    (state1.compute_one NonrigidPolicy.PRECISION fixed1 moving1 probs2 1).sigma2 ≠
      sigma2_spec fixed1
        (state1.compute_one NonrigidPolicy.PRECISION fixed1 moving1 probs2 1).points
        probs2.px probs2.p1 probs2.pt1 := by
  rw [compute_one_sigma2_eq, probs2_points, sigma2_spec]
  norm_num [probs2, fixed1, moving1, Matrix.trace, Matrix.diag, Matrix.mul_apply,
    Matrix.transpose_apply, Fin.sum_univ_one]

/-- C7 is false as stated: with the symmetric all-ones kernel, the
non-constant mass vector `p1 = (1, 2)` and `λ = σ² = 1` (so `λσ² > 0`), the
left-hand operator `dP·G + λσ²·I` is not symmetric. -/
theorem C7_counterexample :
    onesG.IsSymm ∧ (0 : ℝ) < 1 * 1 ∧ ¬ (regularizedLhs p1Skew onesG 1 1).IsSymm := by
  refine ⟨?_, by norm_num, ?_⟩
  · ext i j
    simp [onesG, Matrix.transpose_apply]
  · intro h
    have h2 := Matrix.ext_iff.mpr h 0 1
    rw [Matrix.transpose_apply] at h2
    simp [regularizedLhs, Matrix.diagonal_mul, onesG, p1Skew, Matrix.add_apply,
      Matrix.smul_apply, Matrix.one_apply] at h2

/-- C7 (amended): when the correspondence masses are all equal to a
constant `c ≥ 0` and the kernel `G` is symmetric positive-semidefinite, the
left-hand operator `dP·G + λσ²·I = c·G + λσ²·I` is symmetric, and for
`λσ² > 0` it is positive-definite. -/
theorem C7_amended_symmetric_posdef (c lam sig2 : ℝ) (g : Matrix (Fin n) (Fin n) ℝ)
    (hc : 0 ≤ c) (hg : g.IsSymm) (hpsd : g.PosSemidef) (ht : 0 < lam * sig2) :
    (regularizedLhs (fun _ => c) g lam sig2).IsSymm
    ∧ (regularizedLhs (fun _ => c) g lam sig2).PosDef := by
  have hdg : (Matrix.diagonal (fun _ => c) : Matrix (Fin n) (Fin n) ℝ) * g = c • g := by
    ext i j
    simp [Matrix.diagonal_mul]
  have hA : regularizedLhs (fun _ => c) g lam sig2 = c • g + (lam * sig2) • 1 := by
    rw [regularizedLhs, hdg]
  constructor
  · rw [hA]
    exact (hg.smul c).add (Matrix.isSymm_one.smul (lam * sig2))
  · rw [hA]
    have h1 : ((lam * sig2) • (1 : Matrix (Fin n) (Fin n) ℝ)).PosDef := by
      have hd : ((lam * sig2) • (1 : Matrix (Fin n) (Fin n) ℝ)) =
          Matrix.diagonal (fun _ => lam * sig2) := by
        ext i j
        rw [Matrix.smul_apply, Matrix.one_apply, Matrix.diagonal_apply]
        split <;> simp
      rw [hd]
      exact Matrix.PosDef.diagonal (fun _ => ht)
    have h2 : (c • g).PosSemidef := by
      refine ⟨?_, ?_⟩
      · show (c • g)ᴴ = c • g
        rw [Matrix.conjTranspose_smul, star_trivial, hpsd.1]
      · intro x
        rw [Matrix.smul_mulVec_assoc, Matrix.dotProduct_smul, smul_eq_mul]
        exact mul_nonneg hc (hpsd.2 x)
    exact Matrix.PosDef.posSemidef_add h2 h1

/-- Witness for the amended C7 at `c = 1`, `g = 1`, `λ = σ² = 1`. -/
theorem C7_witness :
    (0 : ℝ) ≤ 1 ∧ (1 : Matrix (Fin 1) (Fin 1) ℝ).IsSymm ∧
    (1 : Matrix (Fin 1) (Fin 1) ℝ).PosSemidef ∧ (0 : ℝ) < 1 * 1 ∧
    ((regularizedLhs (fun _ => (1 : ℝ)) (1 : Matrix (Fin 1) (Fin 1) ℝ) 1 1).IsSymm
    ∧ (regularizedLhs (fun _ => (1 : ℝ)) (1 : Matrix (Fin 1) (Fin 1) ℝ) 1 1).PosDef) :=
  ⟨zero_le_one, Matrix.isSymm_one, Matrix.PosSemidef.one, by norm_num,
    C7_amended_symmetric_posdef 1 1 1 1 zero_le_one Matrix.isSymm_one
      Matrix.PosSemidef.one (by norm_num)⟩

end Theorems

end cpd

end
